import Mathlib

/-! View-model projections of `xeth/js_types.go`

A shallow embedding of the conversion functions of `xeth/js_types.go`
(`NewJSBlock`, `JSBlock.ToString`, `JSBlock.GetTransaction`, `NewJSTx`,
`NewJSPeer`, `NewJSMessage`) together with the properties the specification
states about them.

Go byte slices are lists of bytes, Go strings are Lean strings, Go big integers
are `Int`, fixed-width Go integers are `Int`/`Nat` with explicit wrap-around.
A nil pointer is `none`.  Values that the node runtime computes from a domain
object (hashes, signatures, textual dumps, disassembly) are supplied by a
`Runtime` record, so that every statement holds for every such runtime.
-/

namespace Xeth

/-! ## Bytes and hexadecimal text -/

/-- One byte. -/
abbrev Byte := Fin 256

/-- A Go byte slice (`[]byte`). -/
abbrev Bytes := List Byte

/-- The lowercase hexadecimal digit for a value below sixteen. -/
def hexDigit (n : Nat) : Char :=
  "0123456789abcdef".data.getD n '0'

/-- Value of a hexadecimal digit character (both cases are accepted when decoding). -/
def fromHexChar (c : Char) : Option Nat :=
  if '0' ≤ c ∧ c ≤ '9' then some (c.toNat - '0'.toNat)
  else if 'a' ≤ c ∧ c ≤ 'f' then some (c.toNat - 'a'.toNat + 10)
  else if 'A' ≤ c ∧ c ≤ 'F' then some (c.toNat - 'A'.toNat + 10)
  else none

/-- The two hexadecimal digits of one byte, high nibble first. -/
def encodeByte (b : Byte) : List Char :=
  [hexDigit (b.val / 16), hexDigit (b.val % 16)]

/-- Hexadecimal digits of a byte slice. -/
def encodeChars : Bytes → List Char
  | [] => []
  | b :: bs => encodeByte b ++ encodeChars bs

/-- Modelled from the spec: `ethutil.Bytes2Hex` is not part of the sources at hand; the
specification describes it as the lowercase hex encoding of a byte buffer, which turns a
buffer of length N into a string of length 2N over `[0-9a-f]`. -/
def Bytes2Hex (b : Bytes) : String :=
  String.mk (encodeChars b)

/-- Decoding of a digit sequence: pairs of hexadecimal digits become bytes; an odd length or a
character that is not a hexadecimal digit is an error. -/
def decodeChars : List Char → Option Bytes
  | [] => some []
  | [_] => none
  | c :: d :: rest =>
    match fromHexChar c, fromHexChar d, decodeChars rest with
    | some hi, some lo, some bs => some (Fin.ofNat (hi * 16 + lo) :: bs)
    | _, _, _ => none

/-- Modelled from the spec: `ethutil.Hex2Bytes` is not part of the sources at hand; the
specification speaks of a hex-encoded hash handed to the lookup, so this is the inverse of
`Bytes2Hex`.  The helper has no error result: text that is not a hex encoding decodes to the
empty (nil) slice. -/
def Hex2Bytes (s : String) : Bytes :=
  (decodeChars s.data).getD []

/-- Go `strings.Join`: the elements with the separator between consecutive ones. -/
def stringsJoin : List String → String → String
  | [], _ => ""
  | [s], _ => s
  | s :: t :: rest, sep => s ++ sep ++ stringsJoin (t :: rest) sep

/-! ## Domain objects of the node runtime -/

/-- A transaction (`types.Transaction`), by its stored fields. -/
structure Transaction where
  /-- The nonce. -/
  nonce : Nat
  /-- The recipient bytes, returned by `To()`. -/
  recipient : Bytes
  /-- The payload, returned by `Data()`. -/
  payload : Bytes
  /-- The transferred amount, returned by `Value()`. -/
  value : Int
  /-- The gas allowance, returned by `Gas()`. -/
  gas : Int
  /-- The gas price, returned by `GasPrice()`. -/
  gasPrice : Int
  /-- The signature bytes from which the sender is recovered. -/
  signature : Bytes
  deriving DecidableEq, Repr

/-- A block header (`types.Header`), by the fields the projection reads. -/
structure Header where
  /-- Hash of the parent block. -/
  ParentHash : Bytes
  /-- Address of the miner. -/
  Coinbase : Bytes
  /-- Bloom filter bytes. -/
  Bloom : Bytes
  /-- Block number, a non-negative big integer. -/
  Number : Nat
  /-- Gas limit, a big integer. -/
  GasLimit : Int
  /-- Gas used, a big integer. -/
  GasUsed : Int
  /-- Timestamp, as returned by `Time()`. -/
  Time : Int
  deriving DecidableEq, Repr

/-- A block (`types.Block`): a header, the transaction list and the uncle headers. -/
structure Block where
  /-- The header. -/
  header : Header
  /-- The transactions, in block order. -/
  transactions : List Transaction
  /-- The uncle headers, in block order. -/
  uncles : List Header
  deriving DecidableEq, Repr

/-- Width of the Go type `int` on the platform the node is built for. -/
inductive WordSize where
  | bits32
  | bits64
  deriving DecidableEq, Repr

/-- Number of bits of a word size. -/
def WordSize.bits : WordSize → Nat
  | .bits32 => 32
  | .bits64 => 64

/-- What the surrounding node library computes from domain objects; the projection functions
only call these and copy the results. -/
structure Runtime where
  /-- Width of `int`. -/
  word : WordSize
  /-- The hash of a transaction, `tx.Hash()`. -/
  txHash : Transaction → Bytes
  /-- The recovered sender of a transaction, `tx.From()`. -/
  txFrom : Transaction → Bytes
  /-- Textual dump of a transaction, `tx.String()`. -/
  txString : Transaction → String
  /-- The derived contract address, `core.AddressFromMessage`. -/
  AddressFromMessage : Transaction → Bytes
  /-- The contract-creation test, `core.MessageCreatesContract`. -/
  MessageCreatesContract : Transaction → Bool
  /-- The disassembler, `core.Disassemble`. -/
  Disassemble : Bytes → List String
  /-- Currency rendering of an amount, `ethutil.CurrencyToString`. -/
  CurrencyToString : Int → String
  /-- The hash of a block, `block.Hash()`, which is the hash of its header. -/
  headerHash : Header → Bytes
  /-- Rendering of the storage size of a block, `block.Size().String()`. -/
  blockSize : Block → String
  /-- Textual dump of a block, `block.String()`. -/
  blockString : Block → String

/-- Decimal text of a big integer (`big.Int.String`). -/
def bigString (x : Int) : String := toString x

/-! ## Transaction view -/

/-- The transaction view (`JSTransaction`). -/
structure JSTransaction where
  ref : Transaction
  Value : String
  Gas : String
  GasPrice : String
  Hash : String
  Address : String
  Sender : String
  RawData : String
  Data : String
  Contract : Bool
  CreatesContract : Bool
  Confirmations : Int
  deriving DecidableEq, Repr

/-- The function `NewJSTx`. -/
def NewJSTx (rt : Runtime) (tx : Transaction) : JSTransaction :=
  let hash := Bytes2Hex (rt.txHash tx)
  let receiver := Bytes2Hex tx.recipient
  let receiver :=
    if receiver = "0000000000000000000000000000000000000000" then
      Bytes2Hex (rt.AddressFromMessage tx)
    else receiver
  let sender := Bytes2Hex (rt.txFrom tx)
  let createsContract := rt.MessageCreatesContract tx
  let data :=
    if createsContract then stringsJoin (rt.Disassemble tx.payload) "\n"
    else Bytes2Hex tx.payload
  { ref := tx, Hash := hash, Value := rt.CurrencyToString tx.value, Address := receiver,
    Contract := createsContract, Gas := bigString tx.gas, GasPrice := bigString tx.gasPrice,
    Data := data, Sender := sender, CreatesContract := createsContract,
    RawData := Bytes2Hex tx.payload, Confirmations := 0 }

/-! ## Block view -/

/-- What a Go program does instead of returning when it reads through a nil pointer. -/
inductive Fault where
  | nilDereference
  deriving DecidableEq, Repr

/-- Reinterpretation of the low `bits` bits of an integer as a two's complement number: what
a Go conversion to a signed integer type of that width yields. -/
def truncSigned (bits : Nat) (x : Int) : Int :=
  let u := x % 2 ^ bits
  if u < 2 ^ (bits - 1) then u else u - 2 ^ bits

/-- The accessor `block.NumberU64()`: the low 64 bits of the header's number. -/
def Block.NumberU64 (b : Block) : Nat :=
  b.header.Number % 2 ^ 64

/-- Modelled from the spec: `types.NewBlockWithHeader` is not part of the sources at hand; the
specification says each uncle is reconstructed into a nominal block using only its header,
with no transactions or uncles beneath it. -/
def NewBlockWithHeader (h : Header) : Block :=
  { header := h, transactions := [], uncles := [] }

/-- The loop `out := make([]*T, len(xs)); for i, x := range xs { out[i] = f(x) }`:
a slice of nil pointers of the length of the input, whose slots are then assigned one by one. -/
def fillSlice {α β : Type} (f : α → β) (xs : List α) : List (Option β) :=
  xs.enum.foldl (fun out p => out.set p.1 (some (f p.2))) (List.replicate xs.length none)

/-- The block view (`JSBlock`).  `Transactions` and `Uncles` are pointers to list containers
over slices of pointers. -/
inductive JSBlock where
  | mk (ref : Option Block) (Size : String) (Number : Int) (Hash : String)
      (Transactions : Option (List (Option JSTransaction)))
      (Uncles : Option (List (Option JSBlock)))
      (Time : Int) (Coinbase : String) (Name : String) (GasLimit : String)
      (GasUsed : String) (PrevHash : String) (Bloom : String) (Raw : String)

namespace JSBlock

/-- The back-reference to the source block. -/
def ref : JSBlock → Option Block
  | mk r _ _ _ _ _ _ _ _ _ _ _ _ _ => r

/-- Field `Size`. -/
def Size : JSBlock → String
  | mk _ x _ _ _ _ _ _ _ _ _ _ _ _ => x

/-- Field `Number`. -/
def Number : JSBlock → Int
  | mk _ _ x _ _ _ _ _ _ _ _ _ _ _ => x

/-- Field `Hash`. -/
def Hash : JSBlock → String
  | mk _ _ _ x _ _ _ _ _ _ _ _ _ _ => x

/-- Field `Transactions`. -/
def Transactions : JSBlock → Option (List (Option JSTransaction))
  | mk _ _ _ _ x _ _ _ _ _ _ _ _ _ => x

/-- Field `Uncles`. -/
def Uncles : JSBlock → Option (List (Option JSBlock))
  | mk _ _ _ _ _ x _ _ _ _ _ _ _ _ => x

/-- Field `Time`. -/
def Time : JSBlock → Int
  | mk _ _ _ _ _ _ x _ _ _ _ _ _ _ => x

/-- Field `Coinbase`. -/
def Coinbase : JSBlock → String
  | mk _ _ _ _ _ _ _ x _ _ _ _ _ _ => x

/-- Field `Name`. -/
def Name : JSBlock → String
  | mk _ _ _ _ _ _ _ _ x _ _ _ _ _ => x

/-- Field `GasLimit`. -/
def GasLimit : JSBlock → String
  | mk _ _ _ _ _ _ _ _ _ x _ _ _ _ => x

/-- Field `GasUsed`. -/
def GasUsed : JSBlock → String
  | mk _ _ _ _ _ _ _ _ _ _ x _ _ _ => x

/-- Field `PrevHash`. -/
def PrevHash : JSBlock → String
  | mk _ _ _ _ _ _ _ _ _ _ _ x _ _ => x

/-- Field `Bloom`. -/
def Bloom : JSBlock → String
  | mk _ _ _ _ _ _ _ _ _ _ _ _ x _ => x

/-- Field `Raw`. -/
def Raw : JSBlock → String
  | mk _ _ _ _ _ _ _ _ _ _ _ _ _ x => x

/-- The composite literal `JSBlock{}`: every field has the zero value of its type. -/
def zero : JSBlock :=
  mk none "" 0 "" none none 0 "" "" "" "" "" "" ""

end JSBlock

/-- The function `NewJSBlock`. -/
def NewJSBlock (rt : Runtime) : Option Block → JSBlock
  | none => JSBlock.zero
  | some block =>
    let ptxs := fillSlice (NewJSTx rt) block.transactions
    let txlist := some ptxs
    let puncles :=
      fillSlice (fun u => NewJSBlock rt (some (NewBlockWithHeader u.1))) block.uncles.attach
    let ulist := some puncles
    JSBlock.mk (some block) (rt.blockSize block)
      (truncSigned rt.word.bits block.NumberU64) (Bytes2Hex (rt.headerHash block.header))
      txlist ulist block.header.Time (Bytes2Hex block.header.Coinbase) ""
      (bigString block.header.GasLimit) (bigString block.header.GasUsed)
      (Bytes2Hex block.header.ParentHash) (Bytes2Hex block.header.Bloom)
      (rt.blockString block)
termination_by b => (b.map fun x => x.uncles.length).getD 0
decreasing_by
  have hpos : 0 < block.uncles.length := List.length_pos_of_mem u.2
  simpa [NewBlockWithHeader] using hpos

/-- The method `JSBlock.ToString`. -/
def JSBlock.ToString (rt : Runtime) (self : JSBlock) : String :=
  match self.ref with
  | some b => rt.blockString b
  | none => ""

/-- The scan of a transaction list for the first transaction with the given hash. -/
def scanTransactions (rt : Runtime) (hash : Bytes) : List Transaction → Option Transaction
  | [] => none
  | t :: ts => if hash = rt.txHash t then some t else scanTransactions rt hash ts

/-- Modelled from the spec: the method `types.Block.Transaction` is not part of the sources at
hand; the specification describes a linear scan of the block's transaction list that returns
the first transaction whose hash matches, or a not-found signal.  The method reads the
transaction list through its receiver, so a nil receiver is a nil-pointer dereference. -/
def Block.Transaction (rt : Runtime) : Option Block → Bytes → Except Fault (Option Transaction)
  | none, _ => .error .nilDereference
  | some b, hash => .ok (scanTransactions rt hash b.transactions)

/-- The method `JSBlock.GetTransaction`. -/
def JSBlock.GetTransaction (rt : Runtime) (self : JSBlock) (hash : String) :
    Except Fault (Option JSTransaction) :=
  match Block.Transaction rt self.ref (Hex2Bytes hash) with
  | .error e => .error e
  | .ok none => .ok none
  | .ok (some tx) => .ok (some (NewJSTx rt tx))

/-! ## Peer view -/

/-- A capability announcement (`p2p.Cap`). -/
structure Cap where
  Name : String
  Version : Nat
  deriving DecidableEq, Repr

/-- A peer connection (`p2p.Peer`), by what the projection reads from it. -/
structure Peer where
  /-- Default text of `RemoteAddr()`. -/
  RemoteAddr : String
  /-- Default text of `Identity()`. -/
  Identity : String
  /-- The announced capabilities, `Caps()`. -/
  Caps : List Cap
  deriving DecidableEq, Repr

/-- The peer view (`JSPeer`). -/
structure JSPeer where
  ref : Peer
  Ip : String
  Version : String
  Caps : String
  deriving DecidableEq, Repr

/-- The call `fmt.Sprintf("%s/%d", cap.Name, cap.Version)`. -/
def sprintfCap (cap : Cap) : String :=
  cap.Name ++ "/" ++ toString cap.Version

/-- The call `fmt.Sprintf("%v", xs)` for a slice of strings: an opening bracket, the elements
with a space written before every element but the first, a closing bracket. -/
def sprintStrings (xs : List String) : String :=
  xs.enum.foldl (fun buf p => (if 0 < p.1 then buf ++ " " else buf) ++ p.2) "[" ++ "]"

/-- The function `NewJSPeer`. -/
def NewJSPeer (peer : Peer) : JSPeer :=
  let caps := peer.Caps.foldl (fun caps cap => caps ++ [sprintfCap cap]) []
  { ref := peer, Ip := peer.RemoteAddr, Version := peer.Identity, Caps := sprintStrings caps }

/-- The capability text as the specification words it: the capabilities rendered as
name, slash, decimal version, in announcement order, separated by single spaces, in brackets. -/
def capsText (caps : List Cap) : String :=
  "[" ++ stringsJoin (caps.map fun c => c.Name ++ "/" ++ toString c.Version) " " ++ "]"

/-! ## Execution message view -/

/-- An execution message (`state.Message`), by the fields the projection reads. -/
structure Message where
  To : Bytes
  From : Bytes
  Input : Bytes
  Output : Bytes
  /-- A Go `int`. -/
  Path : Int
  Origin : Bytes
  /-- A Go `int64`. -/
  Timestamp : Int
  Coinbase : Bytes
  Block : Bytes
  /-- A big integer. -/
  Number : Int
  /-- A big integer. -/
  Value : Int
  deriving DecidableEq, Repr

/-- The message view (`JSMessage`). -/
structure JSMessage where
  To : String
  From : String
  Input : String
  Output : String
  Path : Int
  Origin : String
  Timestamp : Int
  Coinbase : String
  Block : String
  Number : Int
  Value : String
  deriving DecidableEq, Repr

/-- The method `big.Int.Int64`: the low 64 bits of the magnitude as an `int64`, negated (in
64-bit arithmetic) when the number is negative. -/
def bigInt64 (x : Int) : Int :=
  let v := truncSigned 64 (x.natAbs % 2 ^ 64 : Nat)
  if x < 0 then truncSigned 64 (-v) else v

/-- The function `NewJSMessage`. -/
def NewJSMessage (message : Message) : JSMessage :=
  { To := Bytes2Hex message.To
    From := Bytes2Hex message.From
    Input := Bytes2Hex message.Input
    Output := Bytes2Hex message.Output
    Path := truncSigned 32 message.Path
    Origin := Bytes2Hex message.Origin
    Timestamp := truncSigned 32 message.Timestamp
    Coinbase := Bytes2Hex message.Origin
    Block := Bytes2Hex message.Block
    Number := truncSigned 32 (bigInt64 message.Number)
    Value := bigString message.Value }

/-! ## A small concrete runtime and sample objects -/

/-- A transaction with the given nonce, recipient and payload and nothing else. -/
def sampleTx (nonce : Nat) (recipient payload : Bytes) : Transaction :=
  { nonce := nonce, recipient := recipient, payload := payload, value := 0, gas := 0,
    gasPrice := 0, signature := [] }

/-- A runtime for 64-bit platforms in which a hash is the nonce as two bytes, a transaction
creates a contract when it has no recipient bytes, and the disassembler prints one line per
payload byte. -/
def sampleRuntime : Runtime :=
  { word := .bits64
    txHash := fun t => [Fin.ofNat (t.nonce / 256), Fin.ofNat t.nonce]
    txFrom := fun t => t.signature
    txString := fun t => toString t.nonce
    AddressFromMessage := fun t => List.replicate 19 0 ++ [Fin.ofNat (t.nonce + 1)]
    MessageCreatesContract := fun t => t.recipient.isEmpty
    Disassemble := fun p => p.map fun b => "op " ++ toString b.val
    CurrencyToString := fun v => toString v
    headerHash := fun h => [Fin.ofNat h.Number]
    blockSize := fun b => toString (b.transactions.length + b.uncles.length)
    blockString := fun b => "block " ++ toString b.header.Number }

/-- A header with the given number and nothing else. -/
def sampleHeader (number : Nat) : Header :=
  { ParentHash := [], Coinbase := [], Bloom := [], Number := number, GasLimit := 0,
    GasUsed := 0, Time := 0 }

/-- A block of two transactions and one uncle. -/
def sampleBlock : Block :=
  { header := sampleHeader 7
    transactions := [sampleTx 1 [] [96, 1], sampleTx 2 (List.replicate 20 0) []]
    uncles := [sampleHeader 6] }

/-- A block whose number is `2 ^ 63`, the least 64-bit value that no signed 64-bit integer
holds. -/
def overflowBlock : Block :=
  { header := sampleHeader (2 ^ 63), transactions := [], uncles := [] }

/-- Modelled from the spec: `core.Disassemble` is not part of the sources at hand; the
specification describes disassembly as rendering raw opcode bytes into a human-readable
per-instruction text listing.  This is the one property of such a listing used below: a
non-empty payload has at least one instruction, and that instruction has a text. -/
def ListsInstructions (disassemble : Bytes → List String) : Prop :=
  ∀ p : Bytes, p ≠ [] → ∃ s ∈ disassemble p, s ≠ ""

/-! ## Hexadecimal text: encoding and decoding -/

theorem fromHexChar_hexDigit (n : Nat) (h : n < 16) : fromHexChar (hexDigit n) = some n := by
  interval_cases n <;> decide

theorem decodeChars_encodeChars (b : Bytes) : decodeChars (encodeChars b) = some b := by
  induction b with
  | nil => rfl
  | cons x xs ih =>
    have hhi : x.val / 16 < 16 := by omega
    have hlo : x.val % 16 < 16 := by omega
    have hx : (Fin.ofNat (x.val / 16 * 16 + x.val % 16) : Fin 256) = x := by
      apply Fin.ext
      simp only [Fin.ofNat, Fin.val_mk]
      omega
    simp [encodeChars, encodeByte, decodeChars, fromHexChar_hexDigit _ hhi,
      fromHexChar_hexDigit _ hlo, ih, hx]

theorem Hex2Bytes_Bytes2Hex (b : Bytes) : Hex2Bytes (Bytes2Hex b) = b := by
  simp [Hex2Bytes, Bytes2Hex, decodeChars_encodeChars]

theorem Bytes2Hex_injective (a b : Bytes) (h : Bytes2Hex a = Bytes2Hex b) : a = b := by
  have := congrArg Hex2Bytes h
  simpa [Hex2Bytes_Bytes2Hex] using this

theorem Bytes2Hex_zeroAddress :
    Bytes2Hex (List.replicate 20 0) = "0000000000000000000000000000000000000000" := by
  decide

theorem Bytes2Hex_eq_zeroAddress_iff (b : Bytes) :
    Bytes2Hex b = "0000000000000000000000000000000000000000" ↔ b = List.replicate 20 0 := by
  constructor
  · intro h
    exact Bytes2Hex_injective _ _ (h.trans Bytes2Hex_zeroAddress.symm)
  · intro h
    rw [h, Bytes2Hex_zeroAddress]

/-! ## Joined text -/

theorem string_ne_empty_iff (s : String) : s ≠ "" ↔ 0 < s.length := by
  constructor
  · intro h
    rcases Nat.eq_zero_or_pos s.length with h0 | h0
    · exact absurd (String.ext (List.length_eq_zero.mp h0)) h
    · exact h0
  · intro h e
    rw [e] at h
    exact Nat.lt_irrefl _ h

theorem stringsJoin_length_ge (sep : String) (l : List String) (s : String) (hs : s ∈ l) :
    s.length ≤ (stringsJoin l sep).length := by
  induction l with
  | nil => cases hs
  | cons a t ih =>
    cases t with
    | nil =>
      simp only [List.mem_singleton] at hs
      simp [stringsJoin, hs]
    | cons b r =>
      simp only [stringsJoin, String.length_append]
      rcases List.mem_cons.mp hs with h | h
      · rw [h]; omega
      · have := ih h
        omega

theorem stringsJoin_ne_empty (sep : String) (l : List String) (h : ∃ s ∈ l, s ≠ "") :
    stringsJoin l sep ≠ "" := by
  obtain ⟨s, hs, hne⟩ := h
  have h1 := (string_ne_empty_iff s).mp hne
  have h2 := stringsJoin_length_ge sep l s hs
  exact (string_ne_empty_iff _).mpr (by omega)

/-! ## The transaction view -/

/-- C2: the address of a transaction view is the hex encoding of the derived contract address
exactly when the recipient is the twenty-byte zero address, and the hex encoding of the
recipient itself otherwise. -/
theorem NewJSTx_Address (rt : Runtime) (T : Transaction) :
    (NewJSTx rt T).Address =
      if T.recipient = List.replicate 20 0 then Bytes2Hex (rt.AddressFromMessage T)
      else Bytes2Hex T.recipient := by
  show (if Bytes2Hex T.recipient = "0000000000000000000000000000000000000000" then
      Bytes2Hex (rt.AddressFromMessage T) else Bytes2Hex T.recipient) = _
  by_cases h : T.recipient = List.replicate 20 0
  · rw [if_pos ((Bytes2Hex_eq_zeroAddress_iff _).mpr h), if_pos h]
  · rw [if_neg (fun e => h ((Bytes2Hex_eq_zeroAddress_iff _).mp e)), if_neg h]

/-- C3: the raw data of a transaction view is always the hex encoding of the payload; when the
view creates a contract its data is the disassembly of the payload joined with newlines, which
is non-empty for a non-empty payload; when it does not, its data equals its raw data. -/
theorem NewJSTx_Data (rt : Runtime) (T : Transaction)
    (hdis : ListsInstructions rt.Disassemble) :
    (NewJSTx rt T).RawData = Bytes2Hex T.payload ∧
    (NewJSTx rt T).CreatesContract = rt.MessageCreatesContract T ∧
    ((NewJSTx rt T).CreatesContract = true →
      (NewJSTx rt T).Data = stringsJoin (rt.Disassemble T.payload) "\n" ∧
      (T.payload ≠ [] → (NewJSTx rt T).Data ≠ "")) ∧
    ((NewJSTx rt T).CreatesContract = false →
      (NewJSTx rt T).Data = (NewJSTx rt T).RawData ∧
      (NewJSTx rt T).Data = Bytes2Hex T.payload) := by
  refine ⟨rfl, rfl, ?_, ?_⟩
  · intro hc
    have hc2 : rt.MessageCreatesContract T = true := hc
    have hd : (NewJSTx rt T).Data = stringsJoin (rt.Disassemble T.payload) "\n" := by
      simp [NewJSTx, hc2]
    refine ⟨hd, fun hp => ?_⟩
    rw [hd]
    exact stringsJoin_ne_empty _ _ (hdis _ hp)
  · intro hc
    have hc2 : rt.MessageCreatesContract T = false := hc
    simp [NewJSTx, hc2]

theorem sampleRuntime_listsInstructions : ListsInstructions sampleRuntime.Disassemble := by
  intro p hp
  cases p with
  | nil => exact absurd rfl hp
  | cons b bs =>
    refine ⟨"op " ++ toString b.val, by simp [sampleRuntime], ?_⟩
    apply (string_ne_empty_iff _).mpr
    simp only [String.length_append]
    have : ("op ").length = 3 := by decide
    omega

/-- Witness for C3: the contract-creating sample transaction with payload `60 01`. -/
theorem NewJSTx_Data_witness :
    ListsInstructions sampleRuntime.Disassemble ∧
    (NewJSTx sampleRuntime (sampleTx 1 [] [96, 1])).RawData = "6001" ∧
    (NewJSTx sampleRuntime (sampleTx 1 [] [96, 1])).CreatesContract = true ∧
    (NewJSTx sampleRuntime (sampleTx 1 [] [96, 1])).Data = "op 96\nop 1" ∧
    (NewJSTx sampleRuntime (sampleTx 1 [] [96, 1])).Data ≠ "" :=
  have h := NewJSTx_Data sampleRuntime (sampleTx 1 [] [96, 1]) sampleRuntime_listsInstructions
  ⟨sampleRuntime_listsInstructions, h.1.trans (by decide), by decide,
    ((h.2.2.1 (by decide)).1).trans (by decide),
    (h.2.2.1 (by decide)).2 (by decide)⟩

/-! ## Slices filled by an indexed loop -/

theorem fillSlice_aux {α β : Type} (f : α → β) (xs : List α) (done : List (Option β)) :
    (xs.enumFrom done.length).foldl (fun out p => out.set p.1 (some (f p.2)))
        (done ++ List.replicate xs.length none)
      = done ++ xs.map (fun x => some (f x)) := by
  induction xs generalizing done with
  | nil => simp
  | cons x xs ih =>
    have hset : (done ++ List.replicate (x :: xs).length none).set done.length (some (f x))
        = (done ++ [some (f x)]) ++ List.replicate xs.length none := by
      simp [List.replicate_succ, List.set_append]
    have hlen : (done ++ [some (f x)]).length = done.length + 1 := by simp
    simp only [List.enumFrom_cons, List.foldl_cons, hset]
    rw [← hlen, ih]
    simp

theorem fillSlice_eq_map {α β : Type} (f : α → β) (xs : List α) :
    fillSlice f xs = xs.map (fun x => some (f x)) := by
  have := fillSlice_aux f xs []
  simpa [fillSlice, List.enum] using this

/-! ## The block view -/

theorem NewJSBlock_some (rt : Runtime) (B : Block) :
    NewJSBlock rt (some B) =
      JSBlock.mk (some B) (rt.blockSize B)
        (truncSigned rt.word.bits B.NumberU64) (Bytes2Hex (rt.headerHash B.header))
        (some (B.transactions.map fun t => some (NewJSTx rt t)))
        (some (B.uncles.map fun u => some (NewJSBlock rt (some (NewBlockWithHeader u)))))
        B.header.Time (Bytes2Hex B.header.Coinbase) ""
        (bigString B.header.GasLimit) (bigString B.header.GasUsed)
        (Bytes2Hex B.header.ParentHash) (Bytes2Hex B.header.Bloom)
        (rt.blockString B) := by
  rw [NewJSBlock]
  simp only [fillSlice_eq_map]
  congr 2
  exact List.attach_map_coe B.uncles
    (fun u => some (NewJSBlock rt (some (NewBlockWithHeader u))))

theorem NewJSBlock_headerOnly (rt : Runtime) (u : Header) :
    (NewJSBlock rt (some (NewBlockWithHeader u))).Transactions = some [] ∧
    (NewJSBlock rt (some (NewBlockWithHeader u))).Uncles = some [] := by
  rw [NewJSBlock_some]
  exact ⟨rfl, rfl⟩

/-- C1: the transaction list of the view of a block holds, slot by slot and in block order, the
views of the transactions of the block: the same number of elements, the element at every index
being the view of the transaction at that index. -/
theorem NewJSBlock_Transactions (rt : Runtime) (B : Block) :
    ∃ txs, (NewJSBlock rt (some B)).Transactions = some txs ∧
      txs.length = B.transactions.length ∧
      (∀ i : Nat, txs[i]? = (B.transactions[i]?).map fun t => some (NewJSTx rt t)) ∧
      txs = B.transactions.map fun t => some (NewJSTx rt t) := by
  refine ⟨B.transactions.map fun t => some (NewJSTx rt t), ?_, ?_, ?_, rfl⟩
  · rw [NewJSBlock_some]
    rfl
  · simp
  · intro i
    simp

/-- C10: the projection is a total function, and the uncle list of the view of a block holds
one view per uncle header, in order, namely the view of the block built from that header alone,
which has an empty transaction list and an empty uncle list of its own. -/
theorem NewJSBlock_Uncles (rt : Runtime) (B : Block) :
    ∃ us, (NewJSBlock rt (some B)).Uncles = some us ∧
      us.length = B.uncles.length ∧
      (∀ i : Nat, us[i]? =
        (B.uncles[i]?).map fun u => some (NewJSBlock rt (some (NewBlockWithHeader u)))) ∧
      (∀ v, some v ∈ us → v.Transactions = some [] ∧ v.Uncles = some []) ∧
      (∀ e ∈ us, ∃ v, e = some v) := by
  refine ⟨B.uncles.map fun u => some (NewJSBlock rt (some (NewBlockWithHeader u))),
    ?_, ?_, ?_, ?_, ?_⟩
  · rw [NewJSBlock_some]
    rfl
  · simp
  · intro i
    simp
  · intro v hv
    obtain ⟨u, _, hu⟩ := List.mem_map.mp hv
    have hv2 : NewJSBlock rt (some (NewBlockWithHeader u)) = v := Option.some.inj hu
    rw [← hv2]
    exact NewJSBlock_headerOnly rt u
  · intro e he
    obtain ⟨u, _, hu⟩ := List.mem_map.mp he
    exact ⟨_, hu.symm⟩

/-- C6: the view of an absent block is the zero view: the back-reference is nil, every text
field is empty, the number and the time are zero, the transaction and uncle lists are absent,
and its textual form is the empty string. -/
theorem NewJSBlock_nil (rt : Runtime) :
    (NewJSBlock rt none).ref = none ∧
    (NewJSBlock rt none).Size = "" ∧
    (NewJSBlock rt none).Number = 0 ∧
    (NewJSBlock rt none).Hash = "" ∧
    (NewJSBlock rt none).Transactions = none ∧
    (NewJSBlock rt none).Uncles = none ∧
    (NewJSBlock rt none).Time = 0 ∧
    (NewJSBlock rt none).Coinbase = "" ∧
    (NewJSBlock rt none).Name = "" ∧
    (NewJSBlock rt none).GasLimit = "" ∧
    (NewJSBlock rt none).GasUsed = "" ∧
    (NewJSBlock rt none).PrevHash = "" ∧
    (NewJSBlock rt none).Bloom = "" ∧
    (NewJSBlock rt none).Raw = "" ∧
    (NewJSBlock rt none).ToString rt = "" := by
  rw [NewJSBlock]
  exact ⟨rfl, rfl, rfl, rfl, rfl, rfl, rfl, rfl, rfl, rfl, rfl, rfl, rfl, rfl, rfl⟩

/-! ## Narrowing conversions -/

theorem truncSigned_32 (x : Int) :
    truncSigned 32 x = (x + 2147483648) % 4294967296 - 2147483648 := by
  simp only [truncSigned]
  norm_num
  split <;> omega

theorem truncSigned_64 (x : Int) :
    truncSigned 64 x = (x + 9223372036854775808) % 18446744073709551616 - 9223372036854775808 := by
  simp only [truncSigned]
  norm_num
  split <;> omega

theorem truncSigned_32_bigInt64 (x : Int) : truncSigned 32 (bigInt64 x) = truncSigned 32 x := by
  have habs : ((x.natAbs % 2 ^ 64 : Nat) : Int) = (x.natAbs : Int) % 18446744073709551616 := by
    push_cast
    norm_num
  simp only [bigInt64, habs, truncSigned_64, truncSigned_32]
  split <;> omega

theorem truncSigned_32_spec (x : Int) :
    truncSigned 32 x =
      (if -2147483648 ≤ x ∧ x ≤ 2147483647 then x
        else (x + 2147483648) % 4294967296 - 2147483648) ∧
    (-2147483648 ≤ truncSigned 32 x ∧ truncSigned 32 x ≤ 2147483647) ∧
    (truncSigned 32 x - x) % 4294967296 = 0 ∧
    (truncSigned 32 x = x ↔ -2147483648 ≤ x ∧ x ≤ 2147483647) := by
  rw [truncSigned_32]
  refine ⟨?_, ?_, ?_, ?_⟩
  · split <;> omega
  · omega
  · omega
  · omega

/-- C8 (as amended): the number of the view of a block is the 64-bit block number converted to
the platform integer without a range check; it equals the block number exactly when that
number is below two to the power of the integer width minus one, and is in every case the
block number wrapped modulo two to the power of the width into the signed range. -/
theorem NewJSBlock_Number (rt : Runtime) (B : Block) :
    ((NewJSBlock rt (some B)).Number = (B.NumberU64 : Int) ↔
      B.NumberU64 < 2 ^ (rt.word.bits - 1)) ∧
    (NewJSBlock rt (some B)).Number =
      ((B.NumberU64 : Int) + 2 ^ (rt.word.bits - 1)) % 2 ^ rt.word.bits
        - 2 ^ (rt.word.bits - 1) := by
  have hN : (NewJSBlock rt (some B)).Number = truncSigned rt.word.bits B.NumberU64 := by
    rw [NewJSBlock_some]
    rfl
  rw [hN]
  cases hw : rt.word with
  | bits32 =>
    simp only [WordSize.bits, truncSigned_32]
    norm_num
    omega
  | bits64 =>
    simp only [WordSize.bits, truncSigned_64]
    norm_num
    omega

/-- Counterexample to C8 as stated: on a 64-bit platform the view of a block numbered `2 ^ 63`
has the number `-2 ^ 63`, which is not the block number. -/
theorem NewJSBlock_Number_overflow :
    overflowBlock.NumberU64 = 9223372036854775808 ∧
    (NewJSBlock sampleRuntime (some overflowBlock)).Number = -9223372036854775808 ∧
    (NewJSBlock sampleRuntime (some overflowBlock)).Number ≠ (overflowBlock.NumberU64 : Int) := by
  have hn : overflowBlock.NumberU64 = 9223372036854775808 := by
    norm_num [Block.NumberU64, overflowBlock, sampleHeader]
  have hN : (NewJSBlock sampleRuntime (some overflowBlock)).Number = -9223372036854775808 := by
    rw [NewJSBlock_some]
    show truncSigned sampleRuntime.word.bits overflowBlock.NumberU64 = _
    rw [hn]
    show truncSigned 64 _ = _
    rw [truncSigned_64]
    norm_num
  refine ⟨hn, hN, ?_⟩
  rw [hN, hn]
  norm_num

/-! ## The execution message view -/

/-- C9: the path, timestamp and number of a message view are the source values narrowed to
signed 32 bits without a check: each equals its source value exactly when that value lies in
the signed 32-bit range, and otherwise is the source value wrapped modulo `2 ^ 32` into that
range; the conversion always yields a value. -/
theorem NewJSMessage_narrowing (m : Message) :
    ((NewJSMessage m).Path =
        (if -2147483648 ≤ m.Path ∧ m.Path ≤ 2147483647 then m.Path
          else (m.Path + 2147483648) % 4294967296 - 2147483648) ∧
      (-2147483648 ≤ (NewJSMessage m).Path ∧ (NewJSMessage m).Path ≤ 2147483647) ∧
      ((NewJSMessage m).Path - m.Path) % 4294967296 = 0 ∧
      ((NewJSMessage m).Path = m.Path ↔ -2147483648 ≤ m.Path ∧ m.Path ≤ 2147483647)) ∧
    ((NewJSMessage m).Timestamp =
        (if -2147483648 ≤ m.Timestamp ∧ m.Timestamp ≤ 2147483647 then m.Timestamp
          else (m.Timestamp + 2147483648) % 4294967296 - 2147483648) ∧
      (-2147483648 ≤ (NewJSMessage m).Timestamp ∧ (NewJSMessage m).Timestamp ≤ 2147483647) ∧
      ((NewJSMessage m).Timestamp - m.Timestamp) % 4294967296 = 0 ∧
      ((NewJSMessage m).Timestamp = m.Timestamp ↔
        -2147483648 ≤ m.Timestamp ∧ m.Timestamp ≤ 2147483647)) ∧
    ((NewJSMessage m).Number =
        (if -2147483648 ≤ m.Number ∧ m.Number ≤ 2147483647 then m.Number
          else (m.Number + 2147483648) % 4294967296 - 2147483648) ∧
      (-2147483648 ≤ (NewJSMessage m).Number ∧ (NewJSMessage m).Number ≤ 2147483647) ∧
      ((NewJSMessage m).Number - m.Number) % 4294967296 = 0 ∧
      ((NewJSMessage m).Number = m.Number ↔ -2147483648 ≤ m.Number ∧ m.Number ≤ 2147483647)) := by
  have hN : (NewJSMessage m).Number = truncSigned 32 m.Number :=
    truncSigned_32_bigInt64 m.Number
  refine ⟨truncSigned_32_spec m.Path, truncSigned_32_spec m.Timestamp, ?_⟩
  rw [hN]
  exact truncSigned_32_spec m.Number

/-! ## The peer view -/

theorem foldl_append_singleton {α β : Type} (f : α → β) (l : List α) (acc : List β) :
    l.foldl (fun caps cap => caps ++ [f cap]) acc = acc ++ l.map f := by
  induction l generalizing acc with
  | nil => simp
  | cons x xs ih => simp [ih]

theorem sprint_tail (xs : List String) (k : Nat) (buf : String) :
    (xs.enumFrom (k + 1)).foldl (fun buf p => (if 0 < p.1 then buf ++ " " else buf) ++ p.2) buf
      = buf ++ xs.foldr (fun x acc => " " ++ x ++ acc) "" := by
  induction xs generalizing k buf with
  | nil => simp
  | cons x xs ih =>
    simp only [List.enumFrom_cons, List.foldl_cons, List.foldr_cons, Nat.succ_pos, if_true]
    rw [ih]
    simp only [String.append_assoc]

theorem stringsJoin_cons_space (x : String) (xs : List String) :
    stringsJoin (x :: xs) " " = x ++ xs.foldr (fun x acc => " " ++ x ++ acc) "" := by
  induction xs generalizing x with
  | nil => simp [stringsJoin]
  | cons y ys ih =>
    simp only [stringsJoin, List.foldr_cons, ih, String.append_assoc]

theorem sprintStrings_eq (xs : List String) :
    sprintStrings xs = "[" ++ stringsJoin xs " " ++ "]" := by
  cases xs with
  | nil => rfl
  | cons x xs =>
    simp only [sprintStrings, List.enum, List.enumFrom_cons, List.foldl_cons, Nat.lt_irrefl,
      if_false]
    rw [sprint_tail, stringsJoin_cons_space]
    simp only [String.append_assoc]

/-- C7: the capability text of a peer view is an opening bracket, the capabilities of the peer
each rendered as name, slash and decimal version, in announcement order and separated by
single spaces, and a closing bracket; `eth` 60 and `shh` 1 give `[eth/60 shh/1]`, and no
capabilities give `[]`. -/
theorem NewJSPeer_Caps (peer : Peer) :
    (NewJSPeer peer).Caps = capsText peer.Caps ∧
    (NewJSPeer { peer with Caps := [⟨"eth", 60⟩, ⟨"shh", 1⟩] }).Caps = "[eth/60 shh/1]" ∧
    (NewJSPeer { peer with Caps := [] }).Caps = "[]" := by
  have h : ∀ q : Peer, (NewJSPeer q).Caps = capsText q.Caps := by
    intro q
    show sprintStrings (q.Caps.foldl (fun caps cap => caps ++ [sprintfCap cap]) []) = _
    rw [foldl_append_singleton, sprintStrings_eq]
    rfl
  refine ⟨h peer, ?_, ?_⟩
  · rw [h]
    show capsText [⟨"eth", 60⟩, ⟨"shh", 1⟩] = "[eth/60 shh/1]"
    decide
  · rw [h]
    show capsText [] = "[]"
    decide

/-! ## Transaction lookup -/

theorem scanTransactions_first (rt : Runtime) (hash : Bytes) (l : List Transaction)
    (h : ∃ t ∈ l, rt.txHash t = hash) :
    ∃ pre t' post, l = pre ++ t' :: post ∧ rt.txHash t' = hash ∧
      (∀ x ∈ pre, rt.txHash x ≠ hash) ∧ scanTransactions rt hash l = some t' := by
  induction l with
  | nil =>
    obtain ⟨t, ht, _⟩ := h
    cases ht
  | cons a l ih =>
    by_cases ha : hash = rt.txHash a
    · exact ⟨[], a, l, rfl, ha.symm, by simp, by simp [scanTransactions, ha]⟩
    · have h2 : ∃ t ∈ l, rt.txHash t = hash := by
        obtain ⟨t, ht, hth⟩ := h
        rcases List.mem_cons.mp ht with e | e
        · exact absurd (e ▸ hth).symm ha
        · exact ⟨t, e, hth⟩
      obtain ⟨pre, t', post, hl, ht', hpre, hscan⟩ := ih h2
      refine ⟨a :: pre, t', post, by simp [hl], ht', ?_, by simp [scanTransactions, ha, hscan]⟩
      intro x hx
      rcases List.mem_cons.mp hx with e | e
      · rw [e]
        exact fun e2 => ha e2.symm
      · exact hpre x e

theorem scanTransactions_none (rt : Runtime) (hash : Bytes) (l : List Transaction)
    (h : ∀ t ∈ l, rt.txHash t ≠ hash) : scanTransactions rt hash l = none := by
  induction l with
  | nil => rfl
  | cons a l ih =>
    have ha : ¬ hash = rt.txHash a := fun e => h a (List.mem_cons_self _ _) e.symm
    simp only [scanTransactions, ha, if_false]
    exact ih fun t ht => h t (List.mem_cons_of_mem _ ht)

theorem NewJSBlock_ref (rt : Runtime) (B : Block) : (NewJSBlock rt (some B)).ref = some B := by
  rw [NewJSBlock_some]
  rfl

/-- C4: looking up, in the view of a block, the hex encoding of the hash of a transaction of
that block yields the view of the first transaction of the block with that hash: the
transaction list splits into a part without that hash, the transaction whose view is
returned, and the rest.  When no other transaction of the block has the hash, this is the
view of the transaction itself. -/
theorem GetTransaction_found (rt : Runtime) (B : Block) (t : Transaction)
    (ht : t ∈ B.transactions) :
    (∃ pre t' post, B.transactions = pre ++ t' :: post ∧ rt.txHash t' = rt.txHash t ∧
      (∀ x ∈ pre, rt.txHash x ≠ rt.txHash t) ∧
      (NewJSBlock rt (some B)).GetTransaction rt (Bytes2Hex (rt.txHash t))
        = .ok (some (NewJSTx rt t'))) ∧
    ((∀ x ∈ B.transactions, rt.txHash x = rt.txHash t → x = t) →
      (NewJSBlock rt (some B)).GetTransaction rt (Bytes2Hex (rt.txHash t))
        = .ok (some (NewJSTx rt t))) := by
  obtain ⟨pre, t', post, hl, ht', hpre, hscan⟩ :=
    scanTransactions_first rt (rt.txHash t) B.transactions ⟨t, ht, rfl⟩
  have hget : (NewJSBlock rt (some B)).GetTransaction rt (Bytes2Hex (rt.txHash t))
      = .ok (some (NewJSTx rt t')) := by
    simp only [JSBlock.GetTransaction, NewJSBlock_ref, Block.Transaction, Hex2Bytes_Bytes2Hex,
      hscan]
  refine ⟨⟨pre, t', post, hl, ht', hpre, hget⟩, fun huniq => ?_⟩
  have hmem : t' ∈ B.transactions := by
    rw [hl]
    simp
  rw [hget, huniq t' hmem ht']

/-- Witness for C4: looking up the hash `0002` of the second transaction of the sample block
returns the view of that transaction. -/
theorem GetTransaction_found_witness :
    sampleTx 2 (List.replicate 20 0) [] ∈ sampleBlock.transactions ∧
    (NewJSBlock sampleRuntime (some sampleBlock)).GetTransaction sampleRuntime "0002"
      = .ok (some (NewJSTx sampleRuntime (sampleTx 2 (List.replicate 20 0) []))) :=
  ⟨by decide,
    (GetTransaction_found sampleRuntime sampleBlock (sampleTx 2 (List.replicate 20 0) [])
      (by decide)).2 (by decide)⟩

/-- The lookup of a hash that no transaction of a present block has returns the not-found
result. -/
theorem GetTransaction_absent (rt : Runtime) (B : Block) (hash : String)
    (h : ∀ t ∈ B.transactions, rt.txHash t ≠ Hex2Bytes hash) :
    (NewJSBlock rt (some B)).GetTransaction rt hash = .ok none := by
  simp only [JSBlock.GetTransaction, NewJSBlock_ref, Block.Transaction,
    scanTransactions_none rt _ _ h]

/-- C5: on the default view returned for an absent block the lookup does not return the
not-found result: the back-reference is nil and reading the transaction list through it
faults, whatever the hash string. -/
theorem GetTransaction_nil_block_faults (rt : Runtime) (hash : String) :
    (NewJSBlock rt none).GetTransaction rt hash = .error Fault.nilDereference ∧
    (NewJSBlock sampleRuntime none).GetTransaction sampleRuntime "deadbeef"
      = .error Fault.nilDereference ∧
    (NewJSBlock rt none).ToString rt = "" := by
  rw [NewJSBlock]
  exact ⟨rfl, by rw [NewJSBlock]; rfl, rfl⟩

end Xeth
